import Mathlib

/-!
Verification of the batch index-scan decode logic
(`src/coprocessor/dag/batch_executor/index_scan_executor.rs`).

Bytes are modelled as `Nat` (byte strings as `List Nat`), 64-bit machine
integers as `Nat`/`Int` with explicit reduction modulo `2 ^ 64`.

The executor file under verification calls a handful of helpers that live
elsewhere in the repository (`datum::split_datum`, `number::decode_i64`,
`number::decode_u64`, the `table` key-layout constants) and the byteorder
big-endian reader.  Those are modelled from the specification, as marked on
each definition; everything in `IndexScanExecutorImpl` itself is translated
directly from the source.
-/

/-- `2 ^ 64`, the modulus of 64-bit machine arithmetic. -/
def two64 : Nat := 2 ^ 64

/-- `2 ^ 63`, the boundary between non-negative and negative `i64` values. -/
def two63 : Nat := 2 ^ 63

/-- Reinterpret a 64-bit unsigned value as a signed `i64` (Rust's `as i64`):
the bit pattern is kept and the sign is reinterpreted. -/
def toI64 (n : Nat) : Int :=
  if n % two64 < two63 then ((n % two64 : Nat) : Int)
  else ((n % two64 : Nat) : Int) - ((two64 : Nat) : Int)

/-- Modelled from the spec: length of the fixed table/index key prefix that
`process_kv_pair` strips (`table::PREFIX_LEN`). -/
def PREFIX_LEN : Nat := 11

/-- Modelled from the spec: length of the table identifier that follows the
prefix (`table::ID_LEN`). -/
def ID_LEN : Nat := 8

/-- Modelled from the spec: the one-byte datum type flag for a signed
variable-length integer (`datum::INT_FLAG`). -/
def INT_FLAG : Nat := 3

/-- Modelled from the spec: the one-byte datum type flag for an unsigned
variable-length integer (`datum::UINT_FLAG`). -/
def UINT_FLAG : Nat := 4

/-- Modelled from the spec: decode a variable-length unsigned integer from the
front of a byte string, returning the decoded value together with the
remaining bytes.  Bytes carry seven payload bits each, least-significant group
first; a byte below `0x80` terminates the encoding.  Running out of input is a
decode error. -/
def decode_var_u64_raw : List Nat → Except String (Nat × List Nat)
  | [] => .error "eof decoding var u64"
  | b :: rest =>
    if b < 128 then .ok (b, rest)
    else
      match decode_var_u64_raw rest with
      | .ok (v, r) => .ok (v * 128 + (b - 128), r)
      | .error e => .error e

/-- Modelled from the spec: `number::decode_u64`'s variable-length decode,
with the result reduced to 64 bits. -/
def decode_var_u64 (l : List Nat) : Except String (Nat × List Nat) :=
  match decode_var_u64_raw l with
  | .ok (v, r) => .ok (v % two64, r)
  | .error e => .error e

/-- Zigzag-decode a 64-bit unsigned value into a signed integer: even values
are non-negative halves, odd values are negative. -/
def unzigzag (v : Nat) : Int :=
  if v % 2 = 0 then ((v / 2 : Nat) : Int) else -((v / 2 : Nat) : Int) - 1

/-- Modelled from the spec: `number::decode_i64`'s variable-length signed
decode, i.e. the unsigned variable-length decode followed by zigzag
reinterpretation. -/
def decode_var_i64 (l : List Nat) : Except String (Int × List Nat) :=
  match decode_var_u64 l with
  | .ok (v, r) => .ok (unzigzag v, r)
  | .error e => .error e

/-- Variable-length encoding of an unsigned integer, written with an explicit
fuel argument so that it computes by structural recursion; `fuel ≥ n` always
suffices because the value shrinks by a factor of 128 per emitted byte. -/
def encode_var_u64_aux : Nat → Nat → List Nat
  | 0, n => [n % 128]
  | fuel + 1, n =>
    if n < 128 then [n]
    else (n % 128 + 128) :: encode_var_u64_aux fuel (n / 128)

/-- Variable-length encoding of an unsigned integer, the inverse of
`decode_var_u64` on values below `2 ^ 64`. -/
def encode_var_u64 (n : Nat) : List Nat :=
  encode_var_u64_aux n n

/-- Zigzag-encode a signed integer into an unsigned one, the inverse of
`unzigzag`. -/
def zigzag (h : Int) : Nat :=
  if 0 ≤ h then 2 * h.toNat else 2 * (-h).toNat - 1

/-- Variable-length encoding of a signed integer: zigzag followed by the
unsigned variable-length encoding. -/
def encode_var_i64 (h : Int) : List Nat :=
  encode_var_u64 (zigzag h)

/-- Combine a byte string into a big-endian natural number. -/
def beBytesToNat (l : List Nat) : Nat :=
  l.foldl (fun a b => a * 256 + b) 0

/-- The byteorder big-endian `i64` reader used for the unique-index handle:
reads exactly the first 8 bytes of the value as a fixed-width big-endian
signed 64-bit integer; fewer than 8 bytes is the decode error reported by
`process_kv_pair`. -/
def read_i64_be (value : List Nat) : Except String Int :=
  if value.length < 8 then .error "Failed to decode handle in value as i64"
  else .ok (toI64 (beBytesToNat (value.take 8)))

/-- Modelled from the spec: consume one complete variable-length integer from
the front of a byte string, returning the consumed bytes and the remainder. -/
def take_varint : List Nat → Except String (List Nat × List Nat)
  | [] => .error "eof splitting datum"
  | b :: rest =>
    if b < 128 then .ok ([b], rest)
    else
      match take_varint rest with
      | .ok (c, r) => .ok (b :: c, r)
      | .error e => .error e

/-- Modelled from the spec: `datum::split_datum` splits one flag-tagged datum
off the front of the payload, returning the still-encoded datum bytes (flag
included) and the remaining payload.  A malformed datum — unknown flag byte or
truncated body — is a decode error. -/
def split_datum (buf : List Nat) : Except String (List Nat × List Nat) :=
  match buf with
  | [] => .error "eof splitting datum"
  | flag :: rest =>
    if flag = INT_FLAG ∨ flag = UINT_FLAG then
      match take_varint rest with
      | .ok (c, r) => .ok (flag :: c, r)
      | .error e => .error e
    else .error "malformed datum"

/-- Modelled from the spec: one column of a columnar batch, in exactly one of
two states — raw (still datum-encoded byte slices, one per row) or decoded
(typed value-or-null per row; the handle column holds 64-bit integers). -/
inductive LazyBatchColumn where
  | raw (rows : List (List Nat))
  | decoded (rows : List (Option Int))
deriving DecidableEq

/-- Number of rows stored in a column, regardless of its state. -/
def LazyBatchColumn.rows_len : LazyBatchColumn → Nat
  | .raw rows => rows.length
  | .decoded rows => rows.length

/-- `columns[i].push_raw(val)`: append still-encoded bytes to the raw column
at index `i`.  `none` models the panic that indexing out of bounds or calling
`push_raw` on a decoded column would cause. -/
def push_raw_at (cols : List LazyBatchColumn) (i : Nat) (v : List Nat) :
    Option (List LazyBatchColumn) :=
  match cols[i]? with
  | some (.raw rows) => some (cols.set i (.raw (rows ++ [v])))
  | _ => none

/-- `columns[i].mut_decoded().push_int(x)`: append a typed value to the
decoded column at index `i`.  `none` models the panic that indexing out of
bounds or calling `mut_decoded` on a raw column would cause. -/
def push_int_at (cols : List LazyBatchColumn) (i : Nat) (x : Option Int) :
    Option (List LazyBatchColumn) :=
  match cols[i]? with
  | some (.decoded rows) => some (cols.set i (.decoded (rows ++ [x])))
  | _ => none

/-- State of `IndexScanExecutorImpl` relevant to decoding: length of the
output schema, number of interested columns excluding the PK handle, and
whether the PK handle column is interested (the evaluation context carries no
information used by the decode paths verified here). -/
structure IndexScanExecutorImpl where
  schema_len : Nat
  columns_len_without_handle : Nat
  decode_handle : Bool
deriving DecidableEq

/-- The constructor loop of `BatchIndexScanExecutor::new`: one schema entry is
pushed per column descriptor; a descriptor with the pk-handle flag sets
`decode_handle`, every other descriptor increments
`columns_len_without_handle`.  Each descriptor is represented by its
`pk_handle` flag, the only field this logic reads. -/
def BatchIndexScanExecutor.new (columns_info : List Bool) : IndexScanExecutorImpl :=
  columns_info.foldl
    (fun imp pk_handle =>
      if pk_handle then { imp with decode_handle := true }
      else { imp with columns_len_without_handle := imp.columns_len_without_handle + 1 })
    { schema_len := columns_info.length
      columns_len_without_handle := 0
      decode_handle := false }

/-- `build_column_vec`: construct empty columns, one raw column per
non-handle schema column followed, when the handle is requested, by one
decoded integer column.  The requested row capacity is advisory only and has
no observable effect on the constructed state. -/
def build_column_vec (imp : IndexScanExecutorImpl) (_expect_rows : Nat) :
    List LazyBatchColumn :=
  List.replicate imp.columns_len_without_handle (.raw []) ++
    (if imp.decode_handle then [.decoded []] else [])

/-- Result of the non-handle column loop of `process_kv_pair`: the remaining
key payload and the updated columns on success, the error together with the
columns as mutated so far on a decode error, or a panic. -/
inductive SplitResult where
  | ok (key_payload : List Nat) (cols : List LazyBatchColumn)
  | err (msg : String) (cols : List LazyBatchColumn)
  | panic
deriving DecidableEq

/-- The loop `for i in 0..columns_len_without_handle` of `process_kv_pair`:
split one datum off the front of the payload, push its bytes onto column `i`,
and advance.  The first argument counts the remaining iterations, the second
is the current column index. -/
def split_loop : Nat → Nat → List Nat → List LazyBatchColumn → SplitResult
  | 0, _, key_payload, cols => .ok key_payload cols
  | k + 1, i, key_payload, cols =>
    match split_datum key_payload with
    | .error e => .err e cols
    | .ok (val, remaining) =>
      match push_raw_at cols i val with
      | none => .panic
      | some cols2 => split_loop k (i + 1) remaining cols2

/-- The `let handle_val = ...` expression of `process_kv_pair`: when the
remaining key payload is empty the handle is read from the value as a
fixed-width big-endian signed 64-bit integer; otherwise the payload's first
byte is a type flag followed by a variable-length signed or unsigned integer,
and any other flag is a decode error. -/
def decode_handle_datum (key_payload value : List Nat) : Except String Int :=
  if key_payload.isEmpty then
    read_i64_be value
  else
    let flag := key_payload.headD 0
    let val := key_payload.drop 1
    if flag = INT_FLAG then
      match decode_var_i64 val with
      | .ok (h, _) => .ok h
      | .error _ => .error "Failed to decode handle in key as i64"
    else if flag = UINT_FLAG then
      match decode_var_u64 val with
      | .ok (v, _) => .ok (toI64 v)
      | .error _ => .error "Failed to decode handle in key as u64"
    else .error ("Unexpected handle flag " ++ toString flag)

/-- Result of `process_kv_pair`: the updated columns on success, the error
together with the columns as mutated so far on a decode error, or a panic. -/
inductive ProcResult where
  | ok (cols : List LazyBatchColumn)
  | err (msg : String) (cols : List LazyBatchColumn)
  | panic
deriving DecidableEq

/-- `process_kv_pair`: strip the fixed prefix and table id from the key
(slicing panics when the key is shorter), split one datum per non-handle
column off the payload, then, when the handle column is requested, decode the
handle by exactly one of the two location rules and push it (never null) onto
the last column. -/
def process_kv_pair (imp : IndexScanExecutorImpl) (key value : List Nat)
    (columns : List LazyBatchColumn) : ProcResult :=
  if key.length < PREFIX_LEN + ID_LEN then .panic
  else
    match split_loop imp.columns_len_without_handle 0
        (key.drop (PREFIX_LEN + ID_LEN)) columns with
    | .panic => .panic
    | .err e cs => .err e cs
    | .ok key_payload cs =>
      if imp.decode_handle then
        match decode_handle_datum key_payload value with
        | .error e => .err e cs
        | .ok handle_val =>
          match push_int_at cs imp.columns_len_without_handle (some handle_val) with
          | none => .panic
          | some cs2 => .ok cs2
      else .ok cs

/-- Pure specification of the datum-splitting phase: split `n` datums off the
front of the payload, returning the list of consumed datums and the leftover
payload, or the first decode error. -/
def split_datums : Nat → List Nat → Except String (List (List Nat) × List Nat)
  | 0, payload => .ok ([], payload)
  | k + 1, payload =>
    match split_datum payload with
    | .error e => .error e
    | .ok (d, rest) =>
      match split_datums k rest with
      | .ok (ds, p) => .ok (d :: ds, p)
      | .error e => .error e

/-- Append each datum of `ds` to consecutive columns starting at index `i`
(the effect of a successful splitting phase on the batch). -/
def pushRawSeq : List LazyBatchColumn → Nat → List (List Nat) → List LazyBatchColumn
  | cols, _, [] => cols
  | cols, i, d :: ds =>
    pushRawSeq
      (cols.set i
        (match cols[i]? with
          | some (.raw rows) => .raw (rows ++ [d])
          | some c => c
          | none => .raw [d]))
      (i + 1) ds

/-- The error message of a `process_kv_pair` result, when it is an error. -/
def ProcResult.errMsg : ProcResult → Option String
  | .ok _ => none
  | .err e _ => some e
  | .panic => none

theorem decode_encode_var_u64_aux (fuel : Nat) :
    ∀ n, n ≤ fuel →
      ∀ rest, decode_var_u64_raw (encode_var_u64_aux fuel n ++ rest) = .ok (n, rest) := by
  induction fuel with
  | zero =>
    intro n hn rest
    have h0 : n = 0 := by omega
    subst h0
    rw [encode_var_u64_aux]
    simp [decode_var_u64_raw]
  | succ fuel ih =>
    intro n hn rest
    rw [encode_var_u64_aux]
    by_cases h : n < 128
    · simp [h, decode_var_u64_raw]
    · have hn128 : 128 ≤ n := Nat.le_of_not_lt h
      have hlt : n / 128 < n :=
        Nat.div_lt_self (Nat.lt_of_lt_of_le (by norm_num) hn128) (by norm_num)
      simp only [h, if_false, List.cons_append, decode_var_u64_raw]
      have hge : ¬ n % 128 + 128 < 128 := by omega
      simp only [hge, if_false, ih (n / 128) (by omega) rest]
      have heq : n / 128 * 128 + (n % 128 + 128 - 128) = n := by omega
      rw [heq]

theorem decode_encode_var_u64_raw (n : Nat) :
    ∀ rest, decode_var_u64_raw (encode_var_u64 n ++ rest) = .ok (n, rest) :=
  decode_encode_var_u64_aux n n (Nat.le_refl n)

theorem decode_encode_var_u64 (n : Nat) (hn : n < two64) (rest : List Nat) :
    decode_var_u64 (encode_var_u64 n ++ rest) = .ok (n, rest) := by
  simp [decode_var_u64, decode_encode_var_u64_raw, Nat.mod_eq_of_lt hn]

theorem unzigzag_zigzag (h : Int) : unzigzag (zigzag h) = h := by
  unfold unzigzag zigzag
  by_cases hp : 0 ≤ h
  · have h2 : 2 * h.toNat % 2 = 0 := by omega
    simp only [hp, if_true, h2, if_pos rfl]
    omega
  · have h1 : 1 ≤ (-h).toNat := by omega
    have h2 : (2 * (-h).toNat - 1) % 2 = 1 := by omega
    simp only [hp, if_false, h2]
    norm_num
    omega

theorem zigzag_lt (h : Int) (h1 : -(two63 : Int) ≤ h) (h2 : h < (two63 : Int)) :
    zigzag h < two64 := by
  unfold zigzag
  unfold two63 at h1 h2
  unfold two64
  by_cases hp : 0 ≤ h
  · simp only [hp, if_true]; omega
  · simp only [hp, if_false]; omega

theorem decode_encode_var_i64 (h : Int) (h1 : -(two63 : Int) ≤ h)
    (h2 : h < (two63 : Int)) (rest : List Nat) :
    decode_var_i64 (encode_var_i64 h ++ rest) = .ok (h, rest) := by
  unfold decode_var_i64 encode_var_i64
  rw [decode_encode_var_u64 (zigzag h) (zigzag_lt h h1 h2) rest]
  simp [unzigzag_zigzag]

theorem decode_var_u64_raw_extend {l r : List Nat} {v : Nat}
    (hd : decode_var_u64_raw l = .ok (v, r)) (X : List Nat) :
    decode_var_u64_raw (l ++ X) = .ok (v, r ++ X) := by
  induction l generalizing v with
  | nil => simp [decode_var_u64_raw] at hd
  | cons b rest ih =>
    rw [decode_var_u64_raw] at hd
    rw [List.cons_append, decode_var_u64_raw]
    by_cases hb : b < 128
    · simp only [hb, if_true] at hd ⊢
      cases hd
      simp
    · simp only [hb, if_false] at hd ⊢
      cases hrec : decode_var_u64_raw rest with
      | error e => rw [hrec] at hd; simp at hd
      | ok p =>
        obtain ⟨v0, r0⟩ := p
        rw [hrec] at hd
        simp only [Except.ok.injEq, Prod.mk.injEq] at hd
        obtain ⟨hv, hr⟩ := hd
        subst hv
        subst hr
        rw [ih hrec]

theorem decode_var_u64_extend {l r : List Nat} {v : Nat}
    (hd : decode_var_u64 l = .ok (v, r)) (X : List Nat) :
    decode_var_u64 (l ++ X) = .ok (v, r ++ X) := by
  unfold decode_var_u64 at hd ⊢
  cases hraw : decode_var_u64_raw l with
  | error e => rw [hraw] at hd; simp at hd
  | ok p =>
    obtain ⟨v0, r0⟩ := p
    rw [hraw] at hd
    simp only [Except.ok.injEq, Prod.mk.injEq] at hd
    rw [decode_var_u64_raw_extend hraw X]
    simp [hd.1, hd.2]

theorem decode_var_i64_extend {l r : List Nat} {v : Int}
    (hd : decode_var_i64 l = .ok (v, r)) (X : List Nat) :
    decode_var_i64 (l ++ X) = .ok (v, r ++ X) := by
  unfold decode_var_i64 at hd ⊢
  cases hraw : decode_var_u64 l with
  | error e => rw [hraw] at hd; simp at hd
  | ok p =>
    obtain ⟨v0, r0⟩ := p
    rw [hraw] at hd
    simp only [Except.ok.injEq, Prod.mk.injEq] at hd
    rw [decode_var_u64_extend hraw X]
    simp [hd.1, hd.2]

theorem take_varint_extend {l c r : List Nat}
    (hd : take_varint l = .ok (c, r)) (X : List Nat) :
    take_varint (l ++ X) = .ok (c, r ++ X) := by
  induction l generalizing c with
  | nil => simp [take_varint] at hd
  | cons b rest ih =>
    rw [take_varint] at hd
    rw [List.cons_append, take_varint]
    by_cases hb : b < 128
    · simp only [hb, if_true] at hd ⊢
      cases hd
      simp
    · simp only [hb, if_false] at hd ⊢
      cases hrec : take_varint rest with
      | error e => rw [hrec] at hd; simp at hd
      | ok p =>
        obtain ⟨c0, r0⟩ := p
        rw [hrec] at hd
        simp only [Except.ok.injEq, Prod.mk.injEq] at hd
        obtain ⟨hc, hr⟩ := hd
        subst hc
        subst hr
        rw [ih hrec]

theorem split_datum_extend {l d r : List Nat}
    (hd : split_datum l = .ok (d, r)) (X : List Nat) :
    split_datum (l ++ X) = .ok (d, r ++ X) := by
  cases l with
  | nil => simp [split_datum] at hd
  | cons flag rest =>
    rw [split_datum] at hd
    rw [List.cons_append, split_datum]
    by_cases hf : flag = INT_FLAG ∨ flag = UINT_FLAG
    · simp only [hf, if_true] at hd ⊢
      cases hrec : take_varint rest with
      | error e => rw [hrec] at hd; simp at hd
      | ok p =>
        obtain ⟨c0, r0⟩ := p
        rw [hrec] at hd
        simp only [Except.ok.injEq, Prod.mk.injEq] at hd
        rw [take_varint_extend hrec X]
        simp [hd.1, hd.2]
    · simp [hf] at hd

theorem split_datums_extend {k : Nat} {l : List Nat} {ds : List (List Nat)}
    {p : List Nat} (hd : split_datums k l = .ok (ds, p)) (X : List Nat) :
    split_datums k (l ++ X) = .ok (ds, p ++ X) := by
  induction k generalizing l ds with
  | zero =>
    rw [split_datums] at hd
    simp only [Except.ok.injEq, Prod.mk.injEq] at hd
    rw [split_datums]
    simp [hd.1, hd.2]
  | succ k ih =>
    rw [split_datums] at hd
    rw [split_datums]
    cases h1 : split_datum l with
    | error e => rw [h1] at hd; simp at hd
    | ok q =>
      obtain ⟨d0, rest0⟩ := q
      rw [h1] at hd
      dsimp only at hd
      rw [split_datum_extend h1 X]
      dsimp only
      cases h2 : split_datums k rest0 with
      | error e => rw [h2] at hd; simp at hd
      | ok q2 =>
        obtain ⟨ds0, p0⟩ := q2
        rw [h2] at hd
        simp only [Except.ok.injEq, Prod.mk.injEq] at hd
        obtain ⟨hds, hp⟩ := hd
        subst hds
        subst hp
        rw [ih h2]

theorem toI64_range (n : Nat) : -(two63 : Int) ≤ toI64 n ∧ toI64 n < (two63 : Int) := by
  unfold toI64
  have hm : n % two64 < two64 := Nat.mod_lt _ (by unfold two64; norm_num)
  have h64 : two64 = 2 * two63 := by unfold two63 two64; norm_num
  by_cases h : n % two64 < two63
  · simp only [h, if_true]
    omega
  · simp only [h, if_false]
    omega

theorem unzigzag_range (v : Nat) (hv : v < two64) :
    -(two63 : Int) ≤ unzigzag v ∧ unzigzag v < two63 := by
  unfold unzigzag
  unfold two64 at hv
  unfold two63
  by_cases h : v % 2 = 0
  · simp only [h, if_true]
    omega
  · simp only [h, if_false]
    omega

theorem decode_var_u64_lt {l r : List Nat} {v : Nat}
    (hd : decode_var_u64 l = .ok (v, r)) : v < two64 := by
  unfold decode_var_u64 at hd
  cases hraw : decode_var_u64_raw l with
  | error e => rw [hraw] at hd; simp at hd
  | ok p =>
    obtain ⟨v0, r0⟩ := p
    rw [hraw] at hd
    simp only [Except.ok.injEq, Prod.mk.injEq] at hd
    rw [← hd.1]
    exact Nat.mod_lt _ (by unfold two64; norm_num)

theorem decode_var_i64_range {l r : List Nat} {h : Int}
    (hd : decode_var_i64 l = .ok (h, r)) : -(two63 : Int) ≤ h ∧ h < two63 := by
  unfold decode_var_i64 at hd
  cases hu : decode_var_u64 l with
  | error e => rw [hu] at hd; simp at hd
  | ok p =>
    obtain ⟨v0, r0⟩ := p
    rw [hu] at hd
    simp only [Except.ok.injEq, Prod.mk.injEq] at hd
    rw [← hd.1]
    exact unzigzag_range v0 (decode_var_u64_lt hu)

theorem decode_handle_datum_range {p v : List Nat} {h : Int}
    (hd : decode_handle_datum p v = .ok h) : -(two63 : Int) ≤ h ∧ h < two63 := by
  unfold decode_handle_datum at hd
  by_cases he : p.isEmpty
  · simp only [he, if_true] at hd
    unfold read_i64_be at hd
    by_cases hl : v.length < 8
    · simp [hl] at hd
    · simp only [hl, if_false, Except.ok.injEq] at hd
      rw [← hd]
      exact toI64_range _
  · simp only [he, Bool.false_eq_true, if_false] at hd
    by_cases hf : p.headD 0 = INT_FLAG
    · simp only [hf, if_true] at hd
      cases hi : decode_var_i64 (p.drop 1) with
      | error e => rw [hi] at hd; simp at hd
      | ok q =>
        obtain ⟨h0, r0⟩ := q
        rw [hi] at hd
        simp only [Except.ok.injEq] at hd
        rw [← hd]
        exact decode_var_i64_range hi
    · simp only [hf, if_false] at hd
      by_cases hg : p.headD 0 = UINT_FLAG
      · simp only [hg, if_true] at hd
        cases hu : decode_var_u64 (p.drop 1) with
        | error e => rw [hu] at hd; simp at hd
        | ok q =>
          obtain ⟨v0, r0⟩ := q
          rw [hu] at hd
          simp only [Except.ok.injEq] at hd
          rw [← hd]
          exact toI64_range _
      · simp only [hg, if_false] at hd
        simp at hd

theorem pushRawSeq_length (ds : List (List Nat)) :
    ∀ (cols : List LazyBatchColumn) (i : Nat),
      (pushRawSeq cols i ds).length = cols.length := by
  induction ds with
  | nil => intro cols i; rw [pushRawSeq]
  | cons d ds ih =>
    intro cols i
    rw [pushRawSeq, ih]
    exact List.length_set cols i _

theorem pushRawSeq_get_out (ds : List (List Nat)) :
    ∀ (cols : List LazyBatchColumn) (i m : Nat), (m < i ∨ i + ds.length ≤ m) →
      (pushRawSeq cols i ds)[m]? = cols[m]? := by
  induction ds with
  | nil => intro cols i m _; rw [pushRawSeq]
  | cons d ds ih =>
    intro cols i m hm
    simp only [List.length_cons] at hm
    rw [pushRawSeq, ih _ (i + 1) m (by omega)]
    exact List.getElem?_set_ne (by omega)

theorem pushRawSeq_get_mid (ds : List (List Nat)) :
    ∀ (cols : List LazyBatchColumn) (i j : Nat) (rows : List (List Nat)),
      j < ds.length → cols[i + j]? = some (.raw rows) →
      (pushRawSeq cols i ds)[i + j]? = some (.raw (rows ++ [ds.getD j []])) := by
  induction ds with
  | nil => intro cols i j rows hj _; simp at hj
  | cons d ds ih =>
    intro cols i j rows hj hget
    rw [pushRawSeq]
    cases j with
    | zero =>
      rw [pushRawSeq_get_out ds _ (i + 1) (i + 0) (by omega)]
      have hi : i < cols.length := by
        by_contra hcon
        rw [List.getElem?_eq_none (by omega)] at hget
        simp at hget
      rw [Nat.add_zero] at hget ⊢
      rw [hget]
      rw [List.getElem?_set_self hi]
      simp
    | succ j0 =>
      have : i + (j0 + 1) = (i + 1) + j0 := by omega
      rw [this]
      rw [ih _ (i + 1) j0 rows (by simp at hj; omega)]
      · simp
      · rw [List.getElem?_set_ne (by omega)]
        rw [← this, hget]

theorem split_datums_ok_length (k : Nat) :
    ∀ {payload : List Nat} {ds : List (List Nat)} {p : List Nat},
      split_datums k payload = .ok (ds, p) → ds.length = k := by
  induction k with
  | zero =>
    intro payload ds p hd
    rw [split_datums] at hd
    simp only [Except.ok.injEq, Prod.mk.injEq] at hd
    rw [← hd.1]
    rfl
  | succ k ih =>
    intro payload ds p hd
    rw [split_datums] at hd
    cases h1 : split_datum payload with
    | error e => rw [h1] at hd; simp at hd
    | ok q =>
      obtain ⟨d0, rest0⟩ := q
      rw [h1] at hd
      dsimp only at hd
      cases h2 : split_datums k rest0 with
      | error e => rw [h2] at hd; simp at hd
      | ok q2 =>
        obtain ⟨ds0, p0⟩ := q2
        rw [h2] at hd
        simp only [Except.ok.injEq, Prod.mk.injEq] at hd
        rw [← hd.1, List.length_cons, ih h2]

theorem split_loop_ok_of_datums (k : Nat) :
    ∀ (payload : List Nat) (ds : List (List Nat)) (p : List Nat)
      (cols : List LazyBatchColumn) (i : Nat),
      split_datums k payload = .ok (ds, p) →
      (∀ j, j < k → ∃ rows, cols[i + j]? = some (.raw rows)) →
      split_loop k i payload cols = .ok p (pushRawSeq cols i ds) := by
  induction k with
  | zero =>
    intro payload ds p cols i hd _
    rw [split_datums] at hd
    simp only [Except.ok.injEq, Prod.mk.injEq] at hd
    obtain ⟨hds, hp⟩ := hd
    rw [split_loop, ← hds, pushRawSeq, hp]
  | succ k ih =>
    intro payload ds p cols i hd hshape
    rw [split_datums] at hd
    cases h1 : split_datum payload with
    | error e => rw [h1] at hd; simp at hd
    | ok q =>
      obtain ⟨d0, rest0⟩ := q
      rw [h1] at hd
      dsimp only at hd
      cases h2 : split_datums k rest0 with
      | error e => rw [h2] at hd; simp at hd
      | ok q2 =>
        obtain ⟨ds0, p0⟩ := q2
        rw [h2] at hd
        simp only [Except.ok.injEq, Prod.mk.injEq] at hd
        obtain ⟨hds, hp⟩ := hd
        subst hds
        subst hp
        obtain ⟨rows, hrows⟩ := hshape 0 (by omega)
        rw [Nat.add_zero] at hrows
        rw [split_loop, h1]
        dsimp only
        unfold push_raw_at
        rw [hrows]
        dsimp only
        rw [pushRawSeq, hrows]
        dsimp only
        apply ih rest0 ds0 p0 _ (i + 1) h2
        intro j hj
        obtain ⟨rows2, hr2⟩ := hshape (j + 1) (by omega)
        refine ⟨rows2, ?_⟩
        rw [List.getElem?_set_ne (by omega)]
        have hidx : i + 1 + j = i + (j + 1) := by omega
        rw [hidx, hr2]

theorem split_loop_err_of_datums (k : Nat) :
    ∀ (payload : List Nat) (e : String) (cols : List LazyBatchColumn) (i : Nat),
      split_datums k payload = .error e →
      (∀ j, j < k → ∃ rows, cols[i + j]? = some (.raw rows)) →
      ∃ cs, split_loop k i payload cols = .err e cs := by
  induction k with
  | zero =>
    intro payload e cols i hd _
    rw [split_datums] at hd
    simp at hd
  | succ k ih =>
    intro payload e cols i hd hshape
    rw [split_datums] at hd
    cases h1 : split_datum payload with
    | error e0 =>
      rw [h1] at hd
      simp only [Except.error.injEq] at hd
      subst hd
      exact ⟨cols, by rw [split_loop, h1]⟩
    | ok q =>
      obtain ⟨d0, rest0⟩ := q
      rw [h1] at hd
      dsimp only at hd
      cases h2 : split_datums k rest0 with
      | ok q2 => obtain ⟨ds0, p0⟩ := q2; rw [h2] at hd; simp at hd
      | error e0 =>
        rw [h2] at hd
        simp only [Except.error.injEq] at hd
        subst hd
        obtain ⟨rows, hrows⟩ := hshape 0 (by omega)
        rw [Nat.add_zero] at hrows
        rw [split_loop, h1]
        dsimp only
        unfold push_raw_at
        rw [hrows]
        dsimp only
        apply ih rest0 e0 _ (i + 1) h2
        intro j hj
        obtain ⟨rows2, hr2⟩ := hshape (j + 1) (by omega)
        refine ⟨rows2, ?_⟩
        rw [List.getElem?_set_ne (by omega)]
        have hidx : i + 1 + j = i + (j + 1) := by omega
        rw [hidx, hr2]

theorem split_loop_ok_inv (k : Nat) :
    ∀ (payload : List Nat) (cols : List LazyBatchColumn) (i : Nat)
      (p : List Nat) (cs : List LazyBatchColumn),
      split_loop k i payload cols = .ok p cs →
      ∃ ds, split_datums k payload = .ok (ds, p) ∧ cs = pushRawSeq cols i ds := by
  induction k with
  | zero =>
    intro payload cols i p cs hl
    rw [split_loop] at hl
    simp only [SplitResult.ok.injEq] at hl
    exact ⟨[], by rw [split_datums, hl.1], by rw [pushRawSeq, hl.2]⟩
  | succ k ih =>
    intro payload cols i p cs hl
    rw [split_loop] at hl
    cases h1 : split_datum payload with
    | error e => rw [h1] at hl; simp at hl
    | ok q =>
      obtain ⟨d0, rest0⟩ := q
      rw [h1] at hl
      dsimp only at hl
      unfold push_raw_at at hl
      cases hget : cols[i]? with
      | none => rw [hget] at hl; simp at hl
      | some c =>
        cases c with
        | decoded rows => rw [hget] at hl; simp at hl
        | raw rows =>
          rw [hget] at hl
          dsimp only at hl
          obtain ⟨ds0, hd0, hcs⟩ := ih rest0 _ (i + 1) p cs hl
          refine ⟨d0 :: ds0, ?_, ?_⟩
          · rw [split_datums, h1]
            dsimp only
            rw [hd0]
          · rw [pushRawSeq, hget]
            exact hcs

theorem split_loop_extend (k : Nat) :
    ∀ (payload : List Nat) (cols : List LazyBatchColumn) (i : Nat)
      (p : List Nat) (cs : List LazyBatchColumn) (X : List Nat),
      split_loop k i payload cols = .ok p cs →
      split_loop k i (payload ++ X) cols = .ok (p ++ X) cs := by
  induction k with
  | zero =>
    intro payload cols i p cs X hl
    rw [split_loop] at hl
    simp only [SplitResult.ok.injEq] at hl
    rw [split_loop, hl.1, hl.2]
  | succ k ih =>
    intro payload cols i p cs X hl
    rw [split_loop] at hl
    cases h1 : split_datum payload with
    | error e => rw [h1] at hl; simp at hl
    | ok q =>
      obtain ⟨d0, rest0⟩ := q
      rw [h1] at hl
      dsimp only at hl
      rw [split_loop, split_datum_extend h1 X]
      dsimp only
      cases hp : push_raw_at cols i d0 with
      | none => rw [hp] at hl; simp at hl
      | some cols2 =>
        rw [hp] at hl
        dsimp only at hl ⊢
        exact ih rest0 cols2 (i + 1) p cs X hl

theorem split_loop_decoded_pres (k : Nat) :
    ∀ (payload : List Nat) (cols : List LazyBatchColumn) (i : Nat)
      (p : List Nat) (cs : List LazyBatchColumn) (m : Nat) (rows : List (Option Int)),
      split_loop k i payload cols = .ok p cs →
      cols[m]? = some (.decoded rows) → cs[m]? = some (.decoded rows) := by
  induction k with
  | zero =>
    intro payload cols i p cs m rows hl hm
    rw [split_loop] at hl
    simp only [SplitResult.ok.injEq] at hl
    rw [← hl.2, hm]
  | succ k ih =>
    intro payload cols i p cs m rows hl hm
    rw [split_loop] at hl
    cases h1 : split_datum payload with
    | error e => rw [h1] at hl; simp at hl
    | ok q =>
      obtain ⟨d0, rest0⟩ := q
      rw [h1] at hl
      dsimp only at hl
      unfold push_raw_at at hl
      cases hget : cols[i]? with
      | none => rw [hget] at hl; simp at hl
      | some c =>
        cases c with
        | decoded rows2 => rw [hget] at hl; simp at hl
        | raw rows2 =>
          rw [hget] at hl
          dsimp only at hl
          apply ih rest0 _ (i + 1) p cs m rows hl
          have him : i ≠ m := by
            intro hcon
            rw [hcon, hm] at hget
            simp at hget
          rw [List.getElem?_set_ne him, hm]

theorem new_fold_char (ci : List Bool) :
    ∀ (acc : IndexScanExecutorImpl),
      ci.foldl
        (fun imp pk_handle =>
          if pk_handle then { imp with decode_handle := true }
          else { imp with
                  columns_len_without_handle := imp.columns_len_without_handle + 1 })
        acc
      = { schema_len := acc.schema_len
          columns_len_without_handle :=
            acc.columns_len_without_handle + ci.countP (fun b => !b)
          decode_handle := acc.decode_handle || ci.any (fun b => b) } := by
  induction ci with
  | nil => intro acc; simp
  | cons b rest ih =>
    intro acc
    rw [List.foldl_cons, ih]
    cases b
    · simp only [if_false, List.countP_cons, List.any_cons]
      simp
      omega
    · simp only [if_true, List.countP_cons, List.any_cons]
      simp

theorem new_char (ci : List Bool) :
    BatchIndexScanExecutor.new ci
      = { schema_len := ci.length
          columns_len_without_handle := ci.countP (fun b => !b)
          decode_handle := ci.any (fun b => b) } := by
  unfold BatchIndexScanExecutor.new
  rw [new_fold_char]
  simp

theorem countP_not_add_countP (ci : List Bool) :
    ci.countP (fun b => !b) + ci.countP (fun b => b) = ci.length := by
  induction ci with
  | nil => simp
  | cons b rest ih =>
    cases b <;> simp [List.countP_cons] <;> omega

theorem any_iff_countP_pos (ci : List Bool) :
    ci.any (fun b => b) = true ↔ 0 < ci.countP (fun b => b) := by
  induction ci with
  | nil => simp
  | cons b rest ih =>
    cases b <;> simp [List.countP_cons, List.any_cons, ih]

theorem build_column_vec_length (imp : IndexScanExecutorImpl) (er : Nat) :
    (build_column_vec imp er).length
      = imp.columns_len_without_handle + (if imp.decode_handle then 1 else 0) := by
  unfold build_column_vec
  cases hdh : imp.decode_handle <;> simp

theorem build_column_vec_get_raw (imp : IndexScanExecutorImpl) (er j : Nat)
    (hj : j < imp.columns_len_without_handle) :
    (build_column_vec imp er)[j]? = some (.raw []) := by
  unfold build_column_vec
  rw [List.getElem?_append_left (by simpa using hj)]
  simp [hj]

theorem build_column_vec_get_handle (imp : IndexScanExecutorImpl) (er : Nat)
    (hdh : imp.decode_handle = true) :
    (build_column_vec imp er)[imp.columns_len_without_handle]? = some (.decoded []) := by
  unfold build_column_vec
  rw [hdh, List.getElem?_append_right (by simp)]
  simp

theorem getSome_lt_length {α : Type} {l : List α} {n : Nat} {a : α}
    (h : l[n]? = some a) : n < l.length := by
  by_contra hcon
  rw [List.getElem?_eq_none (by omega)] at h
  simp at h

theorem read_i64_be_take {v₁ v₂ : List Nat} (hv : v₁.take 8 = v₂.take 8) :
    read_i64_be v₁ = read_i64_be v₂ := by
  unfold read_i64_be
  have hlen : v₁.length < 8 ↔ v₂.length < 8 := by
    have hl := congrArg List.length hv
    simp only [List.length_take] at hl
    omega
  by_cases h1 : v₁.length < 8
  · rw [if_pos h1, if_pos (hlen.mp h1)]
  · rw [if_neg h1, if_neg (fun hcon => h1 (hlen.mpr hcon)), hv]

theorem decode_handle_datum_value_take {p v₁ v₂ : List Nat}
    (hv : v₁.take 8 = v₂.take 8) :
    decode_handle_datum p v₁ = decode_handle_datum p v₂ := by
  unfold decode_handle_datum
  by_cases he : p.isEmpty
  · rw [if_pos he, if_pos he]
    exact read_i64_be_take hv
  · rw [if_neg he, if_neg he]

theorem decode_handle_datum_extend {q v : List Nat} {h : Int} (hq : q ≠ [])
    (hd : decode_handle_datum q v = .ok h) (junk v' : List Nat) :
    decode_handle_datum (q ++ junk) v' = .ok h := by
  cases q with
  | nil => exact absurd rfl hq
  | cons f rest =>
    unfold decode_handle_datum at hd ⊢
    rw [if_neg (by simp)] at hd
    rw [List.cons_append, if_neg (by simp)]
    simp only [List.headD_cons, List.drop_succ_cons, List.drop_zero] at hd ⊢
    by_cases hf : f = INT_FLAG
    · rw [if_pos hf] at hd ⊢
      cases hi : decode_var_i64 rest with
      | error e => rw [hi] at hd; simp at hd
      | ok p =>
        obtain ⟨h0, r0⟩ := p
        rw [hi] at hd
        rw [decode_var_i64_extend hi junk]
        exact hd
    · rw [if_neg hf] at hd ⊢
      by_cases hg : f = UINT_FLAG
      · rw [if_pos hg] at hd ⊢
        cases hu : decode_var_u64 rest with
        | error e => rw [hu] at hd; simp at hd
        | ok p =>
          obtain ⟨v0, r0⟩ := p
          rw [hu] at hd
          rw [decode_var_u64_extend hu junk]
          exact hd
      · rw [if_neg hg] at hd
        simp at hd

theorem process_kv_pair_char (imp : IndexScanExecutorImpl) (key value : List Nat)
    (cols : List LazyBatchColumn) (p : List Nat) (cs : List LazyBatchColumn)
    (hk : PREFIX_LEN + ID_LEN ≤ key.length)
    (hsplit : split_loop imp.columns_len_without_handle 0
        (key.drop (PREFIX_LEN + ID_LEN)) cols = .ok p cs) :
    process_kv_pair imp key value cols
      = if imp.decode_handle then
          match decode_handle_datum p value with
          | .error e => .err e cs
          | .ok handle_val =>
            match push_int_at cs imp.columns_len_without_handle (some handle_val) with
            | none => .panic
            | some cs2 => .ok cs2
        else .ok cs := by
  unfold process_kv_pair
  rw [if_neg (by omega), hsplit]

theorem process_kv_pair_ok_inv (imp : IndexScanExecutorImpl) (key value : List Nat)
    (cols cols2 : List LazyBatchColumn)
    (hok : process_kv_pair imp key value cols = .ok cols2) :
    PREFIX_LEN + ID_LEN ≤ key.length
    ∧ ∃ p cs,
        split_loop imp.columns_len_without_handle 0
          (key.drop (PREFIX_LEN + ID_LEN)) cols = .ok p cs
        ∧ ((imp.decode_handle = true
              ∧ ∃ hv rows, decode_handle_datum p value = .ok hv
                ∧ cs[imp.columns_len_without_handle]? = some (.decoded rows)
                ∧ cols2 = cs.set imp.columns_len_without_handle
                    (.decoded (rows ++ [some hv])))
          ∨ (imp.decode_handle = false ∧ cols2 = cs)) := by
  unfold process_kv_pair at hok
  by_cases hk : key.length < PREFIX_LEN + ID_LEN
  · rw [if_pos hk] at hok
    simp at hok
  · rw [if_neg hk] at hok
    refine ⟨by omega, ?_⟩
    cases hsl : split_loop imp.columns_len_without_handle 0
        (key.drop (PREFIX_LEN + ID_LEN)) cols with
    | panic => rw [hsl] at hok; simp at hok
    | err e cs => rw [hsl] at hok; simp at hok
    | ok p cs =>
      rw [hsl] at hok
      dsimp only at hok
      refine ⟨p, cs, rfl, ?_⟩
      cases hdh : imp.decode_handle with
      | false =>
        rw [hdh] at hok
        simp only [Bool.false_eq_true, if_false, ProcResult.ok.injEq] at hok
        exact Or.inr ⟨rfl, hok.symm⟩
      | true =>
        rw [hdh] at hok
        simp only [if_true] at hok
        cases hd : decode_handle_datum p value with
        | error e => rw [hd] at hok; simp at hok
        | ok hv =>
          rw [hd] at hok
          dsimp only at hok
          unfold push_int_at at hok
          cases hget : cs[imp.columns_len_without_handle]? with
          | none => rw [hget] at hok; simp at hok
          | some c =>
            cases c with
            | raw rows => rw [hget] at hok; simp at hok
            | decoded rows =>
              rw [hget] at hok
              simp only [ProcResult.ok.injEq] at hok
              exact Or.inl ⟨rfl, hv, rows, rfl, rfl, hok.symm⟩

/-- C4: for every requested row capacity, `build_column_vec` constructs a
fresh batch with one raw column per non-handle schema column, followed — only
if a handle column was requested — by exactly one decoded integer column for
the handle, which is then at the last position and decoded (never raw). -/
theorem C4_build_column_vec_shape (imp : IndexScanExecutorImpl) (expect_rows : Nat) :
    (build_column_vec imp expect_rows).length
        = imp.columns_len_without_handle + (if imp.decode_handle then 1 else 0)
    ∧ (∀ j, j < imp.columns_len_without_handle →
        (build_column_vec imp expect_rows)[j]? = some (.raw []))
    ∧ (imp.decode_handle = true →
        (build_column_vec imp expect_rows)[imp.columns_len_without_handle]?
            = some (.decoded [])
        ∧ (build_column_vec imp expect_rows).getLast? = some (.decoded []))
    ∧ (imp.decode_handle = false →
        (build_column_vec imp expect_rows).length = imp.columns_len_without_handle) := by
  refine ⟨build_column_vec_length imp expect_rows, ?_, ?_, ?_⟩
  · intro j hj
    exact build_column_vec_get_raw imp expect_rows j hj
  · intro hdh
    refine ⟨build_column_vec_get_handle imp expect_rows hdh, ?_⟩
    unfold build_column_vec
    rw [hdh]
    simp [List.getLast?_concat]
  · intro hdh
    rw [build_column_vec_length, hdh]
    simp

theorem C4_build_column_vec_shape_witness :
    (build_column_vec ⟨2, 1, true⟩ 0).length = 2
    ∧ (build_column_vec ⟨2, 1, true⟩ 0)[0]? = some (.raw [])
    ∧ (build_column_vec ⟨2, 1, true⟩ 0)[1]? = some (.decoded [])
    ∧ (build_column_vec ⟨2, 1, true⟩ 0).getLast? = some (.decoded []) := by
  have h := C4_build_column_vec_shape ⟨2, 1, true⟩ 0
  exact ⟨h.1.trans (by decide), h.2.1 0 (by decide),
    (h.2.2.1 rfl).1, (h.2.2.1 rfl).2⟩

/-- C10: the constructor counts every non-pk-handle descriptor and sets
`decode_handle` when any pk-handle descriptor exists, so the fresh batch has
(non-pk-handle count) + (1 if any pk-handle) columns; this equals the schema
length exactly when at most one descriptor is a pk-handle, and with two or
more pk-handle descriptors the batch has strictly fewer columns than the
schema. -/
theorem C10_constructor_column_count (ci : List Bool) (er : Nat) :
    (build_column_vec (BatchIndexScanExecutor.new ci) er).length
        = ci.countP (fun b => !b) + (if ci.any (fun b => b) then 1 else 0)
    ∧ (ci.countP (fun b => b) ≤ 1 →
        (build_column_vec (BatchIndexScanExecutor.new ci) er).length
          = (BatchIndexScanExecutor.new ci).schema_len)
    ∧ (2 ≤ ci.countP (fun b => b) →
        (build_column_vec (BatchIndexScanExecutor.new ci) er).length
          < (BatchIndexScanExecutor.new ci).schema_len) := by
  rw [new_char ci, build_column_vec_length]
  dsimp only
  have hsum := countP_not_add_countP ci
  have hle : ci.countP (fun b => b) ≤ ci.length := List.countP_le_length _
  refine ⟨rfl, ?_, ?_⟩
  · intro h1
    by_cases hany : ci.any (fun b => b) = true
    · have hpos := (any_iff_countP_pos ci).mp hany
      rw [if_pos hany]
      omega
    · have h0 : ¬ 0 < ci.countP (fun b => b) :=
        fun hp => hany ((any_iff_countP_pos ci).mpr hp)
      rw [if_neg hany]
      omega
  · intro h2
    have hany : ci.any (fun b => b) = true := (any_iff_countP_pos ci).mpr (by omega)
    rw [if_pos hany]
    omega

theorem C10_constructor_column_count_witness :
    (build_column_vec (BatchIndexScanExecutor.new [false, true]) 0).length = 2
    ∧ (build_column_vec (BatchIndexScanExecutor.new [true, true, false]) 0).length < 3 := by
  constructor
  · have h := (C10_constructor_column_count [false, true] 0).2.1 (by decide)
    exact h.trans (by decide)
  · have h := (C10_constructor_column_count [true, true, false] 0).2.2 (by decide)
    exact lt_of_lt_of_eq h (by decide)

/-- C8 (amended): `process_kv_pair` terminates with success or an explicit
error value for every key of length at least `PREFIX_LEN + ID_LEN` when the
batch has the shape built by `build_column_vec`; a shorter key, however,
panics on the out-of-range prefix slice (see the counterexample). -/
theorem C8_total_for_prefixed_keys (imp : IndexScanExecutorImpl)
    (key value : List Nat) (cols : List LazyBatchColumn)
    (hk : PREFIX_LEN + ID_LEN ≤ key.length)
    (hraw : ∀ j, j < imp.columns_len_without_handle →
        ∃ rows, cols[j]? = some (.raw rows))
    (hdec : imp.decode_handle = true →
        ∃ rows, cols[imp.columns_len_without_handle]? = some (.decoded rows)) :
    process_kv_pair imp key value cols ≠ .panic := by
  intro hcon
  have hshape : ∀ j, j < imp.columns_len_without_handle →
      ∃ rows, cols[0 + j]? = some (.raw rows) := by
    intro j hj
    rw [Nat.zero_add]
    exact hraw j hj
  cases hsd : split_datums imp.columns_len_without_handle
      (key.drop (PREFIX_LEN + ID_LEN)) with
  | error e =>
    obtain ⟨cs, hcs⟩ :=
      split_loop_err_of_datums imp.columns_len_without_handle _ e cols 0 hsd hshape
    unfold process_kv_pair at hcon
    rw [if_neg (by omega), hcs] at hcon
    simp at hcon
  | ok q =>
    obtain ⟨ds, p⟩ := q
    have hsl := split_loop_ok_of_datums imp.columns_len_without_handle
      _ ds p cols 0 hsd hshape
    rw [process_kv_pair_char imp key value cols p _ hk hsl] at hcon
    cases hdh : imp.decode_handle with
    | false =>
      rw [hdh] at hcon
      simp at hcon
    | true =>
      rw [hdh] at hcon
      simp only [if_true] at hcon
      cases hd : decode_handle_datum p value with
      | error e =>
        rw [hd] at hcon
        simp at hcon
      | ok hv =>
        rw [hd] at hcon
        dsimp only at hcon
        obtain ⟨rows, hrows⟩ := hdec hdh
        have hpres := split_loop_decoded_pres imp.columns_len_without_handle
          _ cols 0 p _ imp.columns_len_without_handle rows hsl hrows
        unfold push_int_at at hcon
        rw [hpres] at hcon
        simp at hcon

theorem C8_total_for_prefixed_keys_witness :
    process_kv_pair ⟨1, 0, true⟩ (List.replicate 19 0) (List.replicate 8 0)
        (build_column_vec ⟨1, 0, true⟩ 0) ≠ .panic :=
  C8_total_for_prefixed_keys ⟨1, 0, true⟩ _ _ _ (by decide)
    (fun j hj => by simp at hj)
    (fun _ => ⟨[], by decide⟩)

/-- C8 counterexample: on a key shorter than the fixed prefix plus
table-identifier length — here the empty key — `process_kv_pair` panics on
the out-of-range slice instead of terminating with an explicit error value,
refuting totality over all byte-string keys. -/
theorem C8_counterexample_short_key_panics :
    process_kv_pair ⟨1, 0, true⟩ [] []
        (build_column_vec ⟨1, 0, true⟩ 0) = .panic := by
  decide

/-- C3: when the remaining key payload after the non-handle columns is
non-empty and its first byte is neither the signed-integer nor the
unsigned-integer flag, `process_kv_pair` returns the "Unexpected handle flag"
decode error with the batch as left by the column phase — it neither panics
nor appends a default handle value. -/
theorem C3_unexpected_handle_flag (imp : IndexScanExecutorImpl)
    (key value : List Nat) (cols cs : List LazyBatchColumn)
    (f : Nat) (rest : List Nat)
    (hk : PREFIX_LEN + ID_LEN ≤ key.length)
    (hdh : imp.decode_handle = true)
    (hsplit : split_loop imp.columns_len_without_handle 0
        (key.drop (PREFIX_LEN + ID_LEN)) cols = .ok (f :: rest) cs)
    (hf1 : f ≠ INT_FLAG) (hf2 : f ≠ UINT_FLAG) :
    process_kv_pair imp key value cols
      = .err ("Unexpected handle flag " ++ toString f) cs := by
  have hd : decode_handle_datum (f :: rest) value
      = .error ("Unexpected handle flag " ++ toString f) := by
    unfold decode_handle_datum
    rw [if_neg (by simp)]
    simp only [List.headD_cons, List.drop_succ_cons, List.drop_zero]
    rw [if_neg hf1, if_neg hf2]
  rw [process_kv_pair_char imp key value cols (f :: rest) cs hk hsplit, hdh,
    if_pos rfl, hd]

theorem C3_unexpected_handle_flag_witness :
    process_kv_pair ⟨1, 0, true⟩ (List.replicate 19 0 ++ [7]) []
        (build_column_vec ⟨1, 0, true⟩ 0)
      = .err ("Unexpected handle flag " ++ toString 7)
          (build_column_vec ⟨1, 0, true⟩ 0) :=
  C3_unexpected_handle_flag ⟨1, 0, true⟩ (List.replicate 19 0 ++ [7]) []
    (build_column_vec ⟨1, 0, true⟩ 0) (build_column_vec ⟨1, 0, true⟩ 0) 7 []
    (by decide) rfl (by decide) (by decide) (by decide)

/-- C1: after the non-handle columns have been split off and when a handle
column is requested, exactly one of two mutually exclusive handle-location
rules applies: with an empty remaining payload the handle is the fixed-width
big-endian 8-byte signed integer at the front of the value (fewer than 8
value bytes is a decode error); with a non-empty remaining payload the handle
is decoded from the key payload as a one-byte type flag followed by a
variable-length signed or unsigned integer. -/
theorem C1_handle_location_rules (imp : IndexScanExecutorImpl)
    (key value : List Nat) (cols cs : List LazyBatchColumn)
    (p : List Nat) (rows : List (Option Int))
    (hk : PREFIX_LEN + ID_LEN ≤ key.length)
    (hdh : imp.decode_handle = true)
    (hsplit : split_loop imp.columns_len_without_handle 0
        (key.drop (PREFIX_LEN + ID_LEN)) cols = .ok p cs)
    (hcol : cs[imp.columns_len_without_handle]? = some (.decoded rows)) :
    (p = [] →
        (value.length < 8 →
          process_kv_pair imp key value cols
            = .err "Failed to decode handle in value as i64" cs)
      ∧ (8 ≤ value.length →
          process_kv_pair imp key value cols
            = .ok (cs.set imp.columns_len_without_handle
                (.decoded (rows ++ [some (toI64 (beBytesToNat (value.take 8)))])))))
    ∧ (∀ f rest, p = f :: rest →
        (f = INT_FLAG →
          process_kv_pair imp key value cols
            = match decode_var_i64 rest with
              | .ok (h, _) =>
                .ok (cs.set imp.columns_len_without_handle
                  (.decoded (rows ++ [some h])))
              | .error _ => .err "Failed to decode handle in key as i64" cs)
      ∧ (f = UINT_FLAG →
          process_kv_pair imp key value cols
            = match decode_var_u64 rest with
              | .ok (v, _) =>
                .ok (cs.set imp.columns_len_without_handle
                  (.decoded (rows ++ [some (toI64 v)])))
              | .error _ => .err "Failed to decode handle in key as u64" cs)
      ∧ (f ≠ INT_FLAG → f ≠ UINT_FLAG →
          process_kv_pair imp key value cols
            = .err ("Unexpected handle flag " ++ toString f) cs)) := by
  have hchar := process_kv_pair_char imp key value cols p cs hk hsplit
  rw [hdh, if_pos rfl] at hchar
  constructor
  · intro hp
    subst hp
    have hd0 : decode_handle_datum [] value = read_i64_be value := rfl
    constructor
    · intro hv
      have hr : read_i64_be value
          = .error "Failed to decode handle in value as i64" := by
        unfold read_i64_be
        rw [if_pos hv]
      rw [hchar, hd0, hr]
    · intro hv
      have hr : read_i64_be value
          = .ok (toI64 (beBytesToNat (value.take 8))) := by
        unfold read_i64_be
        rw [if_neg (by omega)]
      rw [hchar, hd0, hr]
      dsimp only
      unfold push_int_at
      rw [hcol]
  · intro f rest hp
    subst hp
    have hd0 : decode_handle_datum (f :: rest) value
        = (if f = INT_FLAG then
            match decode_var_i64 rest with
            | .ok (h, _) => .ok h
            | .error _ => .error "Failed to decode handle in key as i64"
          else if f = UINT_FLAG then
            match decode_var_u64 rest with
            | .ok (v, _) => .ok (toI64 v)
            | .error _ => .error "Failed to decode handle in key as u64"
          else .error ("Unexpected handle flag " ++ toString f)) := rfl
    refine ⟨?_, ?_, ?_⟩
    · intro hf
      subst hf
      rw [hchar, hd0, if_pos rfl]
      cases hi : decode_var_i64 rest with
      | error e => rfl
      | ok q =>
        obtain ⟨h, r⟩ := q
        dsimp only
        unfold push_int_at
        rw [hcol]
    · intro hf
      subst hf
      rw [hchar, hd0, if_neg (by decide), if_pos rfl]
      cases hu : decode_var_u64 rest with
      | error e => rfl
      | ok q =>
        obtain ⟨v, r⟩ := q
        dsimp only
        unfold push_int_at
        rw [hcol]
    · intro hf1 hf2
      rw [hchar, hd0, if_neg hf1, if_neg hf2]

theorem C1_handle_location_rules_witness :
    process_kv_pair ⟨1, 0, true⟩ (List.replicate 19 0) [0, 0, 0, 0, 0, 0, 0, 42]
        (build_column_vec ⟨1, 0, true⟩ 0)
      = .ok [.decoded [some 42]]
    ∧ process_kv_pair ⟨1, 0, true⟩ (List.replicate 19 0) []
        (build_column_vec ⟨1, 0, true⟩ 0)
      = .err "Failed to decode handle in value as i64"
          (build_column_vec ⟨1, 0, true⟩ 0) := by
  constructor
  · have h := ((C1_handle_location_rules ⟨1, 0, true⟩ (List.replicate 19 0)
        [0, 0, 0, 0, 0, 0, 0, 42] (build_column_vec ⟨1, 0, true⟩ 0)
        (build_column_vec ⟨1, 0, true⟩ 0) [] []
        (by decide) rfl (by decide) (by decide)).1 rfl).2 (by decide)
    rw [h]
    decide
  · exact ((C1_handle_location_rules ⟨1, 0, true⟩ (List.replicate 19 0) []
        (build_column_vec ⟨1, 0, true⟩ 0) (build_column_vec ⟨1, 0, true⟩ 0) [] []
        (by decide) rfl (by decide) (by decide)).1 rfl).1 (by decide)

/-- C2: for a non-unique index row (non-empty remaining payload), the decoded
handle equals the integer encoded in the key suffix for both the signed-flag
and unsigned-flag variable-length encodings; an unsigned encoding is
reinterpreted as signed with the 64-bit pattern preserved. -/
theorem C2_nonunique_handle_roundtrip (imp : IndexScanExecutorImpl)
    (key value : List Nat) (cols : List LazyBatchColumn)
    (rows : List (Option Int)) (ds : List (List Nat)) (H : Int) (u : Nat)
    (hk : PREFIX_LEN + ID_LEN ≤ key.length)
    (hdh : imp.decode_handle = true)
    (hraw : ∀ j, j < imp.columns_len_without_handle →
        ∃ rows0, cols[j]? = some (.raw rows0))
    (hcol : cols[imp.columns_len_without_handle]? = some (.decoded rows)) :
    (-(two63 : Int) ≤ H → H < (two63 : Int) →
      split_datums imp.columns_len_without_handle (key.drop (PREFIX_LEN + ID_LEN))
          = .ok (ds, INT_FLAG :: encode_var_i64 H) →
      process_kv_pair imp key value cols
        = .ok ((pushRawSeq cols 0 ds).set imp.columns_len_without_handle
            (.decoded (rows ++ [some H]))))
    ∧ (u < two64 →
      split_datums imp.columns_len_without_handle (key.drop (PREFIX_LEN + ID_LEN))
          = .ok (ds, UINT_FLAG :: encode_var_u64 u) →
      process_kv_pair imp key value cols
        = .ok ((pushRawSeq cols 0 ds).set imp.columns_len_without_handle
            (.decoded (rows ++ [some (toI64 u)])))
      ∧ toI64 u % ((two64 : Nat) : Int) = ((u : Nat) : Int)) := by
  have hshape : ∀ j, j < imp.columns_len_without_handle →
      ∃ rows0, cols[0 + j]? = some (.raw rows0) := by
    intro j hj
    rw [Nat.zero_add]
    exact hraw j hj
  constructor
  · intro h1 h2 hsd
    have hsl := split_loop_ok_of_datums imp.columns_len_without_handle
      _ ds _ cols 0 hsd hshape
    have hcs := split_loop_decoded_pres imp.columns_len_without_handle
      _ cols 0 _ _ imp.columns_len_without_handle rows hsl hcol
    rw [process_kv_pair_char imp key value cols _ _ hk hsl, hdh, if_pos rfl]
    have henc := decode_encode_var_i64 H h1 h2 []
    rw [List.append_nil] at henc
    have hd : decode_handle_datum (INT_FLAG :: encode_var_i64 H) value = .ok H := by
      show (if INT_FLAG = INT_FLAG then
          match decode_var_i64 (encode_var_i64 H) with
          | .ok (h, _) => Except.ok h
          | .error _ => Except.error "Failed to decode handle in key as i64"
        else if INT_FLAG = UINT_FLAG then
          match decode_var_u64 (encode_var_i64 H) with
          | .ok (v, _) => Except.ok (toI64 v)
          | .error _ => Except.error "Failed to decode handle in key as u64"
        else Except.error ("Unexpected handle flag " ++ toString INT_FLAG)) = .ok H
      rw [if_pos rfl, henc]
    rw [hd]
    dsimp only
    unfold push_int_at
    rw [hcs]
  · intro hu hsd
    have hsl := split_loop_ok_of_datums imp.columns_len_without_handle
      _ ds _ cols 0 hsd hshape
    have hcs := split_loop_decoded_pres imp.columns_len_without_handle
      _ cols 0 _ _ imp.columns_len_without_handle rows hsl hcol
    constructor
    · rw [process_kv_pair_char imp key value cols _ _ hk hsl, hdh, if_pos rfl]
      have henc := decode_encode_var_u64 u hu []
      rw [List.append_nil] at henc
      have hd : decode_handle_datum (UINT_FLAG :: encode_var_u64 u) value
          = .ok (toI64 u) := by
        show (if UINT_FLAG = INT_FLAG then
            match decode_var_i64 (encode_var_u64 u) with
            | .ok (h, _) => Except.ok h
            | .error _ => Except.error "Failed to decode handle in key as i64"
          else if UINT_FLAG = UINT_FLAG then
            match decode_var_u64 (encode_var_u64 u) with
            | .ok (v, _) => Except.ok (toI64 v)
            | .error _ => Except.error "Failed to decode handle in key as u64"
          else Except.error ("Unexpected handle flag " ++ toString UINT_FLAG))
            = .ok (toI64 u)
        rw [if_neg (by decide), if_pos rfl, henc]
      rw [hd]
      dsimp only
      unfold push_int_at
      rw [hcs]
    · unfold toI64
      rw [Nat.mod_eq_of_lt hu]
      unfold two64 at hu
      unfold two63 two64
      by_cases hlt : u < 2 ^ 63
      · rw [if_pos hlt]
        omega
      · rw [if_neg hlt]
        omega

theorem C2_nonunique_handle_roundtrip_witness :
    process_kv_pair ⟨1, 0, true⟩ (List.replicate 19 0 ++ [3, 9]) []
        (build_column_vec ⟨1, 0, true⟩ 0)
      = .ok [.decoded [some (-5)]]
    ∧ process_kv_pair ⟨1, 0, true⟩ (List.replicate 19 0 ++ [4, 9]) []
        (build_column_vec ⟨1, 0, true⟩ 0)
      = .ok [.decoded [some 9]] := by
  constructor
  · have h := (C2_nonunique_handle_roundtrip ⟨1, 0, true⟩
        (List.replicate 19 0 ++ [3, 9]) [] (build_column_vec ⟨1, 0, true⟩ 0)
        [] [] (-5) 0 (by decide) rfl (fun j hj => by simp at hj)
        (by decide)).1 (by decide) (by decide) (by rfl)
    rw [h]
    decide
  · have h := ((C2_nonunique_handle_roundtrip ⟨1, 0, true⟩
        (List.replicate 19 0 ++ [4, 9]) [] (build_column_vec ⟨1, 0, true⟩ 0)
        [] [] 0 9 (by decide) rfl (fun j hj => by simp at hj)
        (by decide)).2 (by decide) (by rfl)).1
    rw [h]
    decide

/-- C5: for each of the `columns_len_without_handle` non-handle columns in
order, exactly one flag-tagged datum is split off the front of the remaining
key payload and its still-encoded bytes are appended to the corresponding raw
column; if any datum cannot be split, `process_kv_pair` returns that decode
error for the row. -/
theorem C5_column_datum_loop (imp : IndexScanExecutorImpl)
    (key value : List Nat) (cols : List LazyBatchColumn)
    (hk : PREFIX_LEN + ID_LEN ≤ key.length) :
    (∀ ds p cols2,
        split_datums imp.columns_len_without_handle
            (key.drop (PREFIX_LEN + ID_LEN)) = .ok (ds, p) →
        process_kv_pair imp key value cols = .ok cols2 →
        ∀ j rows, j < imp.columns_len_without_handle →
          cols[j]? = some (.raw rows) →
          cols2[j]? = some (.raw (rows ++ [ds.getD j []])))
    ∧ (∀ e,
        split_datums imp.columns_len_without_handle
            (key.drop (PREFIX_LEN + ID_LEN)) = .error e →
        (∀ j, j < imp.columns_len_without_handle →
            ∃ rows, cols[j]? = some (.raw rows)) →
        (process_kv_pair imp key value cols).errMsg = some e) := by
  constructor
  · intro ds p cols2 hsd hok j rows hj hrow
    obtain ⟨hk2, p', cs, hsl, hrest⟩ :=
      process_kv_pair_ok_inv imp key value cols cols2 hok
    obtain ⟨ds', hsd', hcs⟩ := split_loop_ok_inv imp.columns_len_without_handle
      _ cols 0 p' cs hsl
    rw [hsd] at hsd'
    have hpair := Except.ok.inj hsd'
    have hds : ds = ds' := congrArg Prod.fst hpair
    subst hds
    have hlds : ds.length = imp.columns_len_without_handle :=
      split_datums_ok_length imp.columns_len_without_handle hsd
    have hmid := pushRawSeq_get_mid ds cols 0 j rows (by omega)
      (by rw [Nat.zero_add]; exact hrow)
    rw [Nat.zero_add] at hmid
    rw [← hcs] at hmid
    cases hrest with
    | inr h =>
      rw [h.2, hmid]
    | inl h =>
      obtain ⟨hdh, hv, rowsD, hd, hget, hc2⟩ := h
      rw [hc2, List.getElem?_set_ne (by omega), hmid]
  · intro e hsd hshape
    have hshape0 : ∀ j, j < imp.columns_len_without_handle →
        ∃ rows, cols[0 + j]? = some (.raw rows) := by
      intro j hj
      rw [Nat.zero_add]
      exact hshape j hj
    obtain ⟨cs, hcs⟩ := split_loop_err_of_datums imp.columns_len_without_handle
      _ e cols 0 hsd hshape0
    unfold process_kv_pair
    rw [if_neg (by omega), hcs]
    rfl

theorem C5_column_datum_loop_witness :
    [LazyBatchColumn.raw [[3, 5]], LazyBatchColumn.decoded [some 42]][0]?
      = some (.raw [[3, 5]])
    ∧ (process_kv_pair ⟨2, 1, true⟩ (List.replicate 19 0) []
        (build_column_vec ⟨2, 1, true⟩ 0)).errMsg = some "eof splitting datum" := by
  constructor
  · have h := (C5_column_datum_loop ⟨2, 1, true⟩
        (List.replicate 19 0 ++ [3, 5]) [0, 0, 0, 0, 0, 0, 0, 42]
        (build_column_vec ⟨2, 1, true⟩ 0) (by decide)).1
        [[3, 5]] [] [.raw [[3, 5]], .decoded [some 42]]
        (by rfl) (by decide) 0 [] (by decide) (by decide)
    exact h.trans (by decide)
  · exact (C5_column_datum_loop ⟨2, 1, true⟩ (List.replicate 19 0) []
      (build_column_vec ⟨2, 1, true⟩ 0) (by decide)).2 "eof splitting datum"
      (by rfl)
      (fun j hj => by
        have hj1 : j < 1 := hj
        have hj0 : j = 0 := by omega
        subst hj0
        exact ⟨[], by decide⟩)

/-- C6: whenever a handle column is requested and `process_kv_pair` succeeds,
the value appended to the decoded handle column is a non-null signed 64-bit
integer, so a handle column with no null entries never acquires one. -/
theorem C6_handle_nonnull (imp : IndexScanExecutorImpl)
    (key value : List Nat) (cols cs cols2 : List LazyBatchColumn)
    (p : List Nat) (rows : List (Option Int)) (hv : Int)
    (hdh : imp.decode_handle = true)
    (hk : PREFIX_LEN + ID_LEN ≤ key.length)
    (hsplit : split_loop imp.columns_len_without_handle 0
        (key.drop (PREFIX_LEN + ID_LEN)) cols = .ok p cs)
    (hcs : cs[imp.columns_len_without_handle]? = some (.decoded rows))
    (hnn : rows.all Option.isSome = true)
    (hhd : decode_handle_datum p value = .ok hv)
    (hok : process_kv_pair imp key value cols = .ok cols2) :
    cols2 = cs.set imp.columns_len_without_handle (.decoded (rows ++ [some hv]))
    ∧ (rows ++ [some hv]).all Option.isSome = true
    ∧ -(two63 : Int) ≤ hv ∧ hv < two63 := by
  have hchar := process_kv_pair_char imp key value cols p cs hk hsplit
  rw [hdh, if_pos rfl, hhd] at hchar
  dsimp only at hchar
  unfold push_int_at at hchar
  rw [hcs] at hchar
  dsimp only at hchar
  have heq : cols2
      = cs.set imp.columns_len_without_handle (.decoded (rows ++ [some hv])) :=
    ProcResult.ok.inj (hok.symm.trans hchar)
  refine ⟨heq, ?_, (decode_handle_datum_range hhd).1, (decode_handle_datum_range hhd).2⟩
  rw [List.all_append, hnn]
  simp

theorem C6_handle_nonnull_witness :
    (([] : List (Option Int)) ++ [some 42]).all Option.isSome = true
    ∧ -(two63 : Int) ≤ 42 ∧ (42 : Int) < two63 :=
  (C6_handle_nonnull ⟨1, 0, true⟩ (List.replicate 19 0) [0, 0, 0, 0, 0, 0, 0, 42]
    (build_column_vec ⟨1, 0, true⟩ 0) [.decoded []] [.decoded [some 42]]
    [] [] 42 rfl (by decide) (by decide) (by decide) (by decide) (by rfl)
    (by decide)).2


/-- C7 (amended): if the batch has the shape built by `build_column_vec` and
every column holds `R` rows, a successful `process_kv_pair` call leaves every
column with exactly `R + 1` rows; an error return, however, may leave the
columns with unequal row counts (see the counterexample). -/
theorem C7_equal_row_counts_on_success (imp : IndexScanExecutorImpl)
    (key value : List Nat) (cols cols2 : List LazyBatchColumn) (R : Nat)
    (hlen : cols.length
        = imp.columns_len_without_handle + (if imp.decode_handle then 1 else 0))
    (hraw : ∀ j, j < imp.columns_len_without_handle →
        ∃ rows, cols[j]? = some (.raw rows) ∧ rows.length = R)
    (hdec : imp.decode_handle = true →
        ∃ rows, cols[imp.columns_len_without_handle]? = some (.decoded rows)
          ∧ rows.length = R)
    (hok : process_kv_pair imp key value cols = .ok cols2) :
    cols2.map LazyBatchColumn.rows_len = List.replicate cols.length (R + 1) := by
  obtain ⟨hk, p, cs, hsl, hrest⟩ :=
    process_kv_pair_ok_inv imp key value cols cols2 hok
  obtain ⟨ds, hsd, hcs⟩ := split_loop_ok_inv imp.columns_len_without_handle
    _ cols 0 p cs hsl
  have hlds : ds.length = imp.columns_len_without_handle :=
    split_datums_ok_length imp.columns_len_without_handle hsd
  have hcslen : cs.length = cols.length := by
    rw [hcs, pushRawSeq_length]
  have hmid : ∀ m, m < imp.columns_len_without_handle →
      ∃ rows, cs[m]? = some (.raw rows) ∧ rows.length = R + 1 := by
    intro m hm
    obtain ⟨rows, hrow, hrlen⟩ := hraw m hm
    refine ⟨rows ++ [ds.getD m []], ?_, by simp [hrlen]⟩
    have h0 := pushRawSeq_get_mid ds cols 0 m rows (by omega)
      (by rw [Nat.zero_add]; exact hrow)
    rw [Nat.zero_add] at h0
    rw [hcs]
    exact h0
  apply List.ext_getElem?
  intro m
  rw [List.getElem?_map]
  cases hrest with
  | inr hfalse =>
    obtain ⟨hdh, hc2⟩ := hfalse
    subst hc2
    have hlen0 : cols.length = imp.columns_len_without_handle := by
      rw [hlen, hdh]
      simp
    by_cases hm : m < imp.columns_len_without_handle
    · obtain ⟨rows, hrow, hrlen⟩ := hmid m hm
      rw [hrow, List.getElem?_replicate_of_lt (by omega)]
      simp [LazyBatchColumn.rows_len, hrlen]
    · rw [List.getElem?_eq_none (by omega),
        List.getElem?_eq_none (by rw [List.length_replicate]; omega)]
      rfl
  | inl htrue =>
    obtain ⟨hdh, hv, rows, hd, hget, hc2⟩ := htrue
    have hlen1 : cols.length = imp.columns_len_without_handle + 1 := by
      rw [hlen, hdh]
      simp
    obtain ⟨rowsD, hrowsD, hrdlen⟩ := hdec hdh
    have hpres := split_loop_decoded_pres imp.columns_len_without_handle
      _ cols 0 p cs imp.columns_len_without_handle rowsD hsl hrowsD
    have hrowseq : rows = rowsD := by
      rw [hget] at hpres
      exact LazyBatchColumn.decoded.inj (Option.some.inj hpres)
    have hrlen : rows.length = R := by rw [hrowseq, hrdlen]
    have hnlt : imp.columns_len_without_handle < cs.length := getSome_lt_length hget
    subst hc2
    by_cases hm : m < imp.columns_len_without_handle
    · obtain ⟨rows2, hrow2, hr2len⟩ := hmid m hm
      rw [List.getElem?_set_ne (by omega), hrow2,
        List.getElem?_replicate_of_lt (by omega)]
      simp [LazyBatchColumn.rows_len, hr2len]
    · by_cases hm2 : m = imp.columns_len_without_handle
      · subst hm2
        rw [List.getElem?_set_self hnlt,
          List.getElem?_replicate_of_lt (by omega)]
        simp [LazyBatchColumn.rows_len, hrlen]
      · rw [List.getElem?_eq_none (by rw [List.length_set]; omega),
          List.getElem?_eq_none (by rw [List.length_replicate]; omega)]
        rfl

theorem C7_equal_row_counts_on_success_witness :
    [LazyBatchColumn.decoded [some 42]].map LazyBatchColumn.rows_len
      = List.replicate (build_column_vec ⟨1, 0, true⟩ 0).length (0 + 1) :=
  C7_equal_row_counts_on_success ⟨1, 0, true⟩ (List.replicate 19 0)
    [0, 0, 0, 0, 0, 0, 0, 42] (build_column_vec ⟨1, 0, true⟩ 0)
    [.decoded [some 42]] 0 (by decide)
    (fun j hj => by simp at hj)
    (fun _ => ⟨[], by decide, rfl⟩)
    (by decide)

/-- C7 counterexample: starting from a fresh batch whose two columns both
hold 0 rows, `process_kv_pair` returns an error (the value is too short to
hold the unique-index handle) after having already pushed one datum, leaving
the columns with row counts 1 and 0 — the equal-row-count invariant does not
survive an error return. -/
theorem C7_counterexample_unequal_after_error :
    (build_column_vec ⟨2, 1, true⟩ 0).map LazyBatchColumn.rows_len = [0, 0]
    ∧ process_kv_pair ⟨2, 1, true⟩ (List.replicate 19 0 ++ [3, 0]) []
        (build_column_vec ⟨2, 1, true⟩ 0)
      = .err "Failed to decode handle in value as i64"
          [.raw [[3, 0]], .decoded []]
    ∧ [LazyBatchColumn.raw [[3, 0]], LazyBatchColumn.decoded []].map
        LazyBatchColumn.rows_len = [1, 0]
    ∧ (1 : Nat) ≠ 0 := by
  refine ⟨by decide, by decide, by decide, by decide⟩

/-- C9: `process_kv_pair` ignores the input bytes it does not consume: its
result depends on the value only through the value's first 8 bytes, and for a
successfully processed non-unique row (non-empty remaining key payload after
the column datums) the result is unchanged when arbitrary bytes are appended
to the key and the value is replaced arbitrarily. -/
theorem C9_unconsumed_bytes_ignored (imp : IndexScanExecutorImpl)
    (key : List Nat) (cols : List LazyBatchColumn) :
    (∀ v₁ v₂, v₁.take 8 = v₂.take 8 →
        process_kv_pair imp key v₁ cols = process_kv_pair imp key v₂ cols)
    ∧ (∀ ds q v₁ v₂ junk cols2,
        split_datums imp.columns_len_without_handle
            (key.drop (PREFIX_LEN + ID_LEN)) = .ok (ds, q) →
        q ≠ [] →
        process_kv_pair imp key v₁ cols = .ok cols2 →
        process_kv_pair imp (key ++ junk) v₂ cols = .ok cols2) := by
  constructor
  · intro v₁ v₂ hv
    unfold process_kv_pair
    by_cases hk : key.length < PREFIX_LEN + ID_LEN
    · rw [if_pos hk, if_pos hk]
    · rw [if_neg hk, if_neg hk]
      cases hsl : split_loop imp.columns_len_without_handle 0
          (key.drop (PREFIX_LEN + ID_LEN)) cols with
      | panic => rfl
      | err e cs => rfl
      | ok p cs =>
        dsimp only
        rw [decode_handle_datum_value_take hv]
  · intro ds q v₁ v₂ junk cols2 hsd hq hok
    obtain ⟨hk, p, cs, hsl, hrest⟩ :=
      process_kv_pair_ok_inv imp key v₁ cols cols2 hok
    obtain ⟨ds', hsd', hcs⟩ := split_loop_ok_inv imp.columns_len_without_handle
      _ cols 0 p cs hsl
    rw [hsd] at hsd'
    have hpq : p = q := (congrArg Prod.snd (Except.ok.inj hsd')).symm
    have hsl2 := split_loop_extend imp.columns_len_without_handle
      _ cols 0 p cs junk hsl
    have hdrop : (key ++ junk).drop (PREFIX_LEN + ID_LEN)
        = key.drop (PREFIX_LEN + ID_LEN) ++ junk :=
      List.drop_append_of_le_length (by omega)
    have hk2 : PREFIX_LEN + ID_LEN ≤ (key ++ junk).length := by
      rw [List.length_append]
      omega
    have hsl3 : split_loop imp.columns_len_without_handle 0
        ((key ++ junk).drop (PREFIX_LEN + ID_LEN)) cols = .ok (p ++ junk) cs := by
      rw [hdrop]
      exact hsl2
    have hchar := process_kv_pair_char imp (key ++ junk) v₂ cols (p ++ junk) cs
      hk2 hsl3
    cases hrest with
    | inr hfalse =>
      obtain ⟨hdh, hc2⟩ := hfalse
      rw [hchar, hdh]
      simp only [Bool.false_eq_true, if_false]
      rw [hc2]
    | inl htrue =>
      obtain ⟨hdh, hv, rows, hd, hget, hc2⟩ := htrue
      have hpne : p ≠ [] := by
        rw [hpq]
        exact hq
      have hd2 := decode_handle_datum_extend hpne hd junk v₂
      rw [hchar, hdh, if_pos rfl, hd2]
      dsimp only
      unfold push_int_at
      rw [hget]
      dsimp only
      rw [hc2]

theorem C9_unconsumed_bytes_ignored_witness :
    process_kv_pair ⟨1, 0, true⟩ (List.replicate 19 0) [0, 0, 0, 0, 0, 0, 0, 42]
        (build_column_vec ⟨1, 0, true⟩ 0)
      = process_kv_pair ⟨1, 0, true⟩ (List.replicate 19 0)
          [0, 0, 0, 0, 0, 0, 0, 42, 9, 9] (build_column_vec ⟨1, 0, true⟩ 0)
    ∧ process_kv_pair ⟨1, 0, true⟩ ((List.replicate 19 0 ++ [3, 9]) ++ [7, 7]) []
        (build_column_vec ⟨1, 0, true⟩ 0)
      = .ok [.decoded [some (-5)]] :=
  ⟨(C9_unconsumed_bytes_ignored ⟨1, 0, true⟩ (List.replicate 19 0)
      (build_column_vec ⟨1, 0, true⟩ 0)).1
      [0, 0, 0, 0, 0, 0, 0, 42] [0, 0, 0, 0, 0, 0, 0, 42, 9, 9] (by decide),
   (C9_unconsumed_bytes_ignored ⟨1, 0, true⟩ (List.replicate 19 0 ++ [3, 9])
      (build_column_vec ⟨1, 0, true⟩ 0)).2
      [] [3, 9] [0, 1, 2] [] [7, 7] [.decoded [some (-5)]]
      (by rfl) (by decide) (by decide)⟩
